import Mathlib

/-!
Shallow embedding of `src/fetchers/top-languages-fetcher.js` (the
`fetchTopLanguages` pipeline of github-readme-stats).

Modelling conventions:
* JavaScript numbers holding byte sizes and counters are modelled as `ℕ`
  (the upstream GraphQL API only delivers non-negative integral sizes);
  the two weighting exponents and the weighted score are modelled as `ℝ`,
  idealising IEEE doubles the way the design documents do ("real-valued
  exponentiation").
* The plain-object accumulator that maps canonical language names to
  stats is modelled as an insertion-ordered association list:
  `{...acc, [k]: v}` keeps an existing key at its original position and
  appends a fresh key at the end, which is exactly JavaScript property
  order for the non-index string keys that language names are.  Language
  names are assumed not to collide with `Object.prototype` member names;
  that holds for every real language name.
* The `repoToHide` exclusion table, by contrast, is modelled with the
  full prototype-chain truthiness of `repoToHide[repo.name]`, because
  repository names are arbitrary user-chosen strings: a name that is an
  inherited `Object.prototype` property reads back a truthy function
  even when it was never inserted.
* `Array.prototype.sort` (ES2019 and later: stable) is modelled as a
  stable insertion sort by the comparator's preorder.  The pre-sort
  comparator `(a, b) => b.size - a.size` always evaluates to `NaN`
  because the GraphQL selection carries no repository-level `size`
  field; a `NaN` comparator result is treated as a tie by the sort, so
  every pair of repositories compares equal.
* The fetch/retry collaborator is out of scope; its already-materialised
  response is a parameter, and throwing is modelled with `Except`.
-/

/-- Language node of one GraphQL language edge: `{ color, name }`. -/
structure LangNode where
  name : String
  color : String
deriving DecidableEq, Repr

/-- One GraphQL language edge `{ size, node { color, name } }`. -/
structure LanguageEdge where
  size : ℕ
  node : LangNode
deriving DecidableEq, Repr

/-- One repository node `{ name, languages { edges } }` as selected by the
GraphQL query (note: no repository-level `size` field is selected). -/
structure RepoNode where
  name : String
  edges : List LanguageEdge
deriving DecidableEq, Repr

/-- Aggregated per-language entry `{ name, color, size, count }` before
weighting: `size` is still the byte total. -/
structure LanguageStat where
  name : String
  color : String
  size : ℕ
  count : ℕ
deriving DecidableEq, Repr

/-- Per-language entry after the weighting pass: `size` has been
reassigned to `Math.pow(size, size_weight) * Math.pow(count, count_weight)`,
a real-valued score; `name`, `color`, `count` are untouched. -/
structure WLangStat where
  name : String
  color : String
  size : ℝ
  count : ℕ

/-- Name normalisation (line 122): a language named "Jupyter Notebook" is
re-labelled "Python"; every other name is kept. -/
def canonName (n : String) : String :=
  if n = "Jupyter Notebook" then "Python" else n

/-- Colour normalisation (line 123): when the canonical name is "Python"
the colour is forced to "#3572A5", otherwise the edge's colour is kept. -/
def canonColor (cn : String) (c : String) : String :=
  if cn = "Python" then "#3572A5" else c

/-- Lookup `acc[name]` on the insertion-ordered accumulator. -/
def findStat : List LanguageStat → String → Option LanguageStat
  | [], _ => none
  | t :: ts, n => if t.name = n then some t else findStat ts n

/-- Update `{...acc, [s.name]: s}`: an existing key keeps its position and
gets the new value; a fresh key is appended at the end. -/
def updateStat : List LanguageStat → LanguageStat → List LanguageStat
  | [], s => [s]
  | t :: ts, s => if t.name = s.name then s :: ts else t :: updateStat ts s

/-- One step of the aggregation fold (lines 120-143).  The state is the
accumulator object together with the shared scalar `repoCount`: an edge
extending an existing entry adds its size to the running total and
increments the shared counter, an edge creating a new entry starts the
total at the edge's size and resets the counter to 1; the entry stores a
snapshot of the counter (and the current edge's normalised colour). -/
def aggStep : List LanguageStat × ℕ → LanguageEdge → List LanguageStat × ℕ
  | (acc, cnt), e =>
    let n := canonName e.node.name
    let c := canonColor n e.node.color
    match findStat acc n with
    | some t => (updateStat acc ⟨n, c, e.size + t.size, cnt + 1⟩, cnt + 1)
    | none => (updateStat acc ⟨n, c, e.size, 1⟩, 1)

/-- The aggregation fold over the flattened edge sequence, starting from
an empty object and `repoCount = 0` (lines 114, 120-143). -/
def aggregateEdges (es : List LanguageEdge) : List LanguageStat × ℕ :=
  es.foldl aggStep ([], 0)

/-- Edge flattening (lines 117-119): repositories with no language edges
are dropped, then `reduce((acc, curr) => curr.languages.edges.concat(acc), [])`
prepends each successive repository's edges, so later repositories' edges
end up ahead of earlier ones. -/
def flattenEdges (repos : List RepoNode) : List LanguageEdge :=
  (repos.filter (fun r => !r.edges.isEmpty)).foldl (fun acc r => r.edges ++ acc) []

/-- Own properties of `Object.prototype`: reading any of these names off a
plain object returns an inherited function (or, for `__proto__`, the
prototype object), all of which are truthy. -/
def objectProtoProps : List String :=
  ["constructor", "hasOwnProperty", "isPrototypeOf", "propertyIsEnumerable",
   "toLocaleString", "toString", "valueOf", "__defineGetter__",
   "__defineSetter__", "__lookupGetter__", "__lookupSetter__", "__proto__"]

/-- Truthiness of `repoToHide[name]` (lines 100-112): truthy when the
name was inserted from `exclude_repo`, and also when the name is an
inherited `Object.prototype` property. -/
def repoToHideTruthy (excl : List String) (name : String) : Bool :=
  decide (name ∈ excl) || decide (name ∈ objectProtoProps)

/-- The always-tied pre-sort comparator (line 111): `b.size - a.size` is
`undefined - undefined = NaN` since repository nodes carry no `size`
attribute, and the sort treats a `NaN` comparator result as a tie. -/
def repoTie (_a _b : RepoNode) : Prop := True

instance : DecidableRel repoTie := fun _ _ => Decidable.isTrue trivial

/-- The pre-sort (line 111): a stable sort in which every comparison ties. -/
def preSortRepos (l : List RepoNode) : List RepoNode :=
  List.insertionSort repoTie l

/-- Pre-sort followed by the exclusion filter (lines 110-112):
`repoNodes.sort((a, b) => b.size - a.size).filter((repo) => !repoToHide[repo.name])`. -/
def filteredRepos (excl : List String) (repos : List RepoNode) : List RepoNode :=
  (preSortRepos repos).filter (fun r => !repoToHideTruthy excl r.name)

/-- The aggregated mapping, in insertion order, for a repository list and
an exclusion list (state after line 143). -/
def aggStats (repos : List RepoNode) (excl : List String) : List LanguageStat :=
  (aggregateEdges (flattenEdges (filteredRepos excl repos))).1

/-- The weighting pass on one entry (lines 146-150):
`size := Math.pow(size, size_weight) * Math.pow(count, count_weight)`. -/
noncomputable def weightStat (sw cw : ℝ) (s : LanguageStat) : WLangStat :=
  ⟨s.name, s.color, (s.size : ℝ) ^ sw * (s.count : ℝ) ^ cw, s.count⟩

/-- Order used by the final sort (line 154): `a` may precede `b` exactly
when the comparator `b.size - a.size` is not positive, i.e. descending by
weighted size. -/
def wGE (a b : WLangStat) : Prop := b.size ≤ a.size

noncomputable instance : DecidableRel wGE :=
  fun a b => inferInstanceAs (Decidable (b.size ≤ a.size))

instance : IsTotal WLangStat wGE := ⟨fun a b => le_total b.size a.size⟩

instance : IsTrans WLangStat wGE := ⟨fun _ _ _ hab hbc => le_trans hbc hab⟩

/-- The final ranking (lines 153-158): a stable sort of the weighted
entries, descending by weighted size. -/
noncomputable def rank (l : List WLangStat) : List WLangStat :=
  List.insertionSort wGE l

/-- The weighted entries in the aggregated mapping's insertion order
(state after line 150, before the final sort). -/
noncomputable def weightedStats (repos : List RepoNode) (excl : List String)
    (sw cw : ℝ) : List WLangStat :=
  (aggStats repos excl).map (weightStat sw cw)

/-- The success-path result of the pipeline: the ordered mapping returned
at line 160, as a list in its iteration order. -/
noncomputable def topLangsOf (repos : List RepoNode) (excl : List String)
    (sw cw : ℝ) : List WLangStat :=
  rank (weightedStats repos excl sw cw)

/-- One error object of the upstream GraphQL error payload, with its
optional `type` and `message` fields. -/
structure GqlError where
  type : Option String
  message : Option String
deriving DecidableEq, Repr

/-- The already-materialised response handed over by the fetch/retry
collaborator: `res.data.errors`, `res.statusText`, and on success
`res.data.data.user.repositories.nodes`. -/
structure Response where
  errors : Option (List GqlError)
  statusText : String
  nodes : List RepoNode
deriving Repr

/-- The error taxonomy thrown by `fetchTopLanguages`: `MissingParamError`
with its parameter list, `CustomError` with kind `USER_NOT_FOUND`, a
`CustomError` carrying the wrapped upstream message and the HTTP status
text, the generic `CustomError` with kind `GRAPHQL_ERROR`, and the
runtime `TypeError` that reading `errors[0].type` off an empty error
array would raise. -/
inductive FetchError where
  | missingParam (params : List String)
  | userNotFound (message : String)
  | upstreamMessage (message : String) (status : String)
  | graphqlError
  | runtimeTypeError
deriving DecidableEq, Repr

/-- JavaScript `m || d` on an optional string: the fallback `d` is taken
both when `m` is absent and when it is the (falsy) empty string. -/
def jsOrElse (m : Option String) (d : String) : String :=
  match m with
  | some s => if s = "" then d else s
  | none => d

/-- Truthiness of an optional string field: present and non-empty. -/
def jsTruthyStr (m : Option String) : Bool :=
  match m with
  | some s => !(s = "")
  | none => false

/-- Modelled from the spec: `wrapTextMultiline(msg, 90, 1)[0]` lives in
`src/common/utils.js`, which is not part of this source tree; the spec
only says the message is truncated/wrapped to a bounded line width before
being surfaced, modelled here as taking the first 90 characters. -/
def wrapFirstLine (s : String) : String := s.take 90

/-- The whole fetcher (lines 67-161).  `username` is a falsy-checked
string (absent is modelled as `""`); the collaborator's response is the
`res` parameter; the returned ordered mapping or the thrown error is the
`Except` value. -/
noncomputable def fetchTopLanguages (username : String) (exclude_repo : List String)
    (size_weight count_weight : ℝ) (res : Response) :
    Except FetchError (List WLangStat) :=
  if username = "" then .error (.missingParam ["username"])
  else
    match res.errors with
    | some [] => .error .runtimeTypeError
    | some (e :: _) =>
      if e.type = some "NOT_FOUND" then
        .error (.userNotFound (jsOrElse e.message "Could not fetch user."))
      else if jsTruthyStr e.message then
        .error (.upstreamMessage (wrapFirstLine (e.message.getD "")) res.statusText)
      else .error .graphqlError
    | none => .ok (topLangsOf res.nodes exclude_repo size_weight count_weight)

/-! ### Basic accumulator laws -/

/-- The pre-weighting size stored for a canonical name: the entry's size,
or 0 when the name has no entry. -/
def statSize (acc : List LanguageStat) (n : String) : ℕ :=
  match findStat acc n with
  | some t => t.size
  | none => 0

/-- Total size of the edges of one edge list whose canonical name is `n`. -/
def edgeSizeSum (es : List LanguageEdge) (n : String) : ℕ :=
  ((es.filter (fun e => canonName e.node.name = n)).map LanguageEdge.size).sum

/-- Total size, across a repository list, of the edges whose canonical
name is `n`. -/
def repoSizeSum (repos : List RepoNode) (n : String) : ℕ :=
  (repos.map (fun r => edgeSizeSum r.edges n)).sum

/-! ### Concrete instances used to exercise the pipeline -/

/-- A JavaScript edge of a given byte size. -/
def edgeJS (n : ℕ) : LanguageEdge := ⟨n, ⟨"JavaScript", "#f1e05a"⟩⟩

/-- A Go edge of a given byte size. -/
def edgeGo (n : ℕ) : LanguageEdge := ⟨n, ⟨"Go", "#00ADD8"⟩⟩

/-- Repository `A` with one 100-byte JavaScript edge. -/
def repoA : RepoNode := ⟨"A", [edgeJS 100]⟩

/-- Repository `B` with one 50-byte JavaScript edge. -/
def repoB : RepoNode := ⟨"B", [edgeJS 50]⟩

/-- Repository `G` with one 100-byte Go edge. -/
def repoG : RepoNode := ⟨"G", [edgeGo 100]⟩

/-- Repository `R` with one 100-byte Rust edge. -/
def repoR : RepoNode := ⟨"R", [⟨100, ⟨"Rust", "#dea584"⟩⟩]⟩

/-- Repository `J` with one 200-byte Jupyter Notebook edge carrying the
Jupyter colour. -/
def repoJ : RepoNode := ⟨"J", [⟨200, ⟨"Jupyter Notebook", "#DA5B0B"⟩⟩]⟩

/-- A repository named `toString`, an inherited `Object.prototype` key. -/
def repoProto : RepoNode := ⟨"toString", [⟨999, ⟨"C", "#555555"⟩⟩]⟩

/-- A repository named `constructor`, an inherited `Object.prototype` key. -/
def repoCtor : RepoNode := ⟨"constructor", [edgeGo 10]⟩

/-- The weighted Python entry produced from `repoJ` under default weights. -/
noncomputable def wPython : WLangStat := weightStat 1 0 ⟨"Python", "#3572A5", 200, 1⟩

/-- The weighted Rust entry produced from `[repoG, repoR]` under default
weights. -/
noncomputable def wRust : WLangStat := weightStat 1 0 ⟨"Rust", "#dea584", 100, 1⟩

/-- The weighted Go entry produced from `[repoG, repoR]` under default
weights. -/
noncomputable def wGo : WLangStat := weightStat 1 0 ⟨"Go", "#00ADD8", 100, 1⟩

/-- An upstream response whose first error is `NOT_FOUND` with an empty
`message` string. -/
def notFoundEmptyResp : Response := ⟨some [⟨some "NOT_FOUND", some ""⟩], "OK", []⟩

/-- An upstream response whose first error is `NOT_FOUND` with message
`No user`. -/
def notFoundMsgResp : Response := ⟨some [⟨some "NOT_FOUND", some "No user"⟩], "OK", []⟩

theorem orderedInsert_repoTie (a : RepoNode) (l : List RepoNode) :
    List.orderedInsert repoTie a l = a :: l := by
  cases l with
  | nil => rfl
  | cons b l => simp [List.orderedInsert, repoTie]

theorem preSortRepos_eq_self (l : List RepoNode) : preSortRepos l = l := by
  induction l with
  | nil => rfl
  | cons a l ih =>
    simp only [preSortRepos, List.insertionSort] at *
    rw [ih, orderedInsert_repoTie]

theorem findStat_updateStat (acc : List LanguageStat) (s : LanguageStat)
    (n : String) :
    findStat (updateStat acc s) n = if s.name = n then some s else findStat acc n := by
  induction acc with
  | nil => simp [updateStat, findStat]
  | cons t ts ih =>
    by_cases ht : t.name = s.name
    · by_cases h : s.name = n
      · have htn : t.name = n := ht.trans h
        simp [updateStat, if_pos ht, findStat, h, htn]
      · have ht' : ¬ t.name = n := fun hh => h (ht.symm.trans hh)
        simp [updateStat, if_pos ht, findStat, h, ht']
    · by_cases h : t.name = n
      · have hs : ¬ s.name = n := fun hh => ht (h.trans hh.symm)
        have hns : ¬ n = s.name := fun hh => hs hh.symm
        simp [updateStat, if_neg ht, findStat, h, hs, hns]
      · simp [updateStat, if_neg ht, findStat, h, ih]

theorem mem_updateStat {acc : List LanguageStat} {s t : LanguageStat}
    (h : t ∈ updateStat acc s) : t ∈ acc ∨ t = s := by
  induction acc with
  | nil => simp [updateStat] at h; simp [h]
  | cons u us ih =>
    by_cases hu : u.name = s.name
    · simp only [updateStat, if_pos hu, List.mem_cons] at h
      rcases h with h | h
      · exact Or.inr h
      · exact Or.inl (List.mem_cons_of_mem _ h)
    · simp only [updateStat, if_neg hu, List.mem_cons] at h
      rcases h with h | h
      · exact Or.inl (h ▸ List.mem_cons_self _ _)
      · rcases ih h with h | h
        · exact Or.inl (List.mem_cons_of_mem _ h)
        · exact Or.inr h

/-- Updating keeps the key list unchanged when the key already exists and
appends it otherwise. -/
theorem names_updateStat (acc : List LanguageStat) (s : LanguageStat) :
    (updateStat acc s).map LanguageStat.name =
      if (findStat acc s.name).isSome then acc.map LanguageStat.name
      else acc.map LanguageStat.name ++ [s.name] := by
  induction acc with
  | nil => simp [updateStat, findStat]
  | cons t ts ih =>
    by_cases ht : t.name = s.name
    · simp [updateStat, if_pos ht, findStat, ht]
    · simp only [updateStat, if_neg ht, List.map_cons, findStat]
      rw [ih]
      by_cases hf : (findStat ts s.name).isSome
      · simp [hf]
      · simp [hf]

/-! ### Aggregation fold characterisation -/

theorem findStat_aggStep_ne (st : List LanguageStat × ℕ) (e : LanguageEdge)
    (n : String) (h : ¬ canonName e.node.name = n) :
    findStat (aggStep st e).1 n = findStat st.1 n := by
  obtain ⟨acc, cnt⟩ := st
  cases hf : findStat acc (canonName e.node.name) <;>
    simp [aggStep, hf, findStat_updateStat, h]

theorem findStat_foldl_untouched (es : List LanguageEdge)
    (st : List LanguageStat × ℕ) (n : String)
    (h : ∀ e ∈ es, ¬ canonName e.node.name = n) :
    findStat ((es.foldl aggStep st).1) n = findStat st.1 n := by
  induction es generalizing st with
  | nil => rfl
  | cons e es ih =>
    rw [List.foldl_cons, ih _ (fun e' he' => h e' (List.mem_cons_of_mem _ he')),
      findStat_aggStep_ne _ _ _ (h e (List.mem_cons_self _ _))]

theorem statSize_aggStep (st : List LanguageStat × ℕ) (e : LanguageEdge)
    (n : String) :
    statSize (aggStep st e).1 n =
      statSize st.1 n + (if canonName e.node.name = n then e.size else 0) := by
  obtain ⟨acc, cnt⟩ := st
  by_cases h : canonName e.node.name = n
  · cases hf : findStat acc (canonName e.node.name) with
    | none =>
      have hn : findStat acc n = none := h ▸ hf
      simp [aggStep, hf, statSize, findStat_updateStat, h, hn]
    | some t =>
      have hn : findStat acc n = some t := h ▸ hf
      simp only [aggStep, hf, statSize, findStat_updateStat, h, hn, if_pos]
      omega
  · cases hf : findStat acc (canonName e.node.name) <;>
      simp [aggStep, hf, statSize, findStat_updateStat, h]

theorem statSize_foldl (es : List LanguageEdge) (st : List LanguageStat × ℕ)
    (n : String) :
    statSize ((es.foldl aggStep st).1) n = statSize st.1 n + edgeSizeSum es n := by
  induction es generalizing st with
  | nil => simp [edgeSizeSum]
  | cons e es ih =>
    rw [List.foldl_cons, ih, statSize_aggStep]
    by_cases h : canonName e.node.name = n <;>
      simp [edgeSizeSum, List.filter_cons, h] <;> omega

theorem findStat_isSome_aggStep (st : List LanguageStat × ℕ) (e : LanguageEdge)
    (n : String) :
    (findStat (aggStep st e).1 n).isSome ↔
      (findStat st.1 n).isSome ∨ canonName e.node.name = n := by
  obtain ⟨acc, cnt⟩ := st
  simp only [aggStep]
  cases hf : findStat acc (canonName e.node.name) <;>
    by_cases h : canonName e.node.name = n <;>
      simp [findStat_updateStat, h]

theorem findStat_isSome_foldl (es : List LanguageEdge)
    (st : List LanguageStat × ℕ) (n : String) :
    (findStat ((es.foldl aggStep st).1) n).isSome ↔
      (findStat st.1 n).isSome ∨ ∃ e ∈ es, canonName e.node.name = n := by
  induction es generalizing st with
  | nil => simp
  | cons e es ih =>
    rw [List.foldl_cons, ih, findStat_isSome_aggStep]
    constructor
    · rintro (⟨h | h⟩ | ⟨e', he', h⟩)
      · exact Or.inl h
      · exact Or.inr ⟨e, List.mem_cons_self _ _, h⟩
      · exact Or.inr ⟨e', List.mem_cons_of_mem _ he', h⟩
    · rintro (h | ⟨e', he', h⟩)
      · exact Or.inl (Or.inl h)
      · rcases List.mem_cons.mp he' with rfl | he'
        · exact Or.inl (Or.inr h)
        · exact Or.inr ⟨e', he', h⟩

theorem findStat_isSome_iff_mem (acc : List LanguageStat) (n : String) :
    (findStat acc n).isSome ↔ ∃ s ∈ acc, s.name = n := by
  induction acc with
  | nil => simp [findStat]
  | cons t ts ih =>
    by_cases h : t.name = n
    · simp only [findStat, if_pos h, Option.isSome_some, true_iff]
      exact ⟨t, List.mem_cons_self _ _, h⟩
    · simp only [findStat, if_neg h, ih]
      constructor
      · rintro ⟨s, hs, rfl⟩
        exact ⟨s, List.mem_cons_of_mem _ hs, rfl⟩
      · rintro ⟨s, hs, rfl⟩
        rcases List.mem_cons.mp hs with rfl | hs
        · exact absurd rfl h
        · exact ⟨s, hs, rfl⟩

theorem findStat_of_mem_nodup {acc : List LanguageStat}
    (hnd : (acc.map LanguageStat.name).Nodup) {s : LanguageStat} (hs : s ∈ acc) :
    findStat acc s.name = some s := by
  induction acc with
  | nil => simp at hs
  | cons t ts ih =>
    rw [List.map_cons, List.nodup_cons] at hnd
    rcases List.mem_cons.mp hs with rfl | hs
    · simp [findStat]
    · have hne : ¬ t.name = s.name := fun hh =>
        hnd.1 (hh ▸ List.mem_map_of_mem LanguageStat.name hs)
      simp [findStat, hne, ih hnd.2 hs]

theorem nodup_names_updateStat (acc : List LanguageStat) (s : LanguageStat)
    (hnd : (acc.map LanguageStat.name).Nodup) :
    ((updateStat acc s).map LanguageStat.name).Nodup := by
  rw [names_updateStat]
  by_cases hf : (findStat acc s.name).isSome
  · simpa [hf] using hnd
  · have hnm : ¬ s.name ∈ acc.map LanguageStat.name := by
      intro hmem
      rcases List.mem_map.mp hmem with ⟨u, hu, hname⟩
      exact hf ((findStat_isSome_iff_mem acc s.name).mpr ⟨u, hu, hname⟩)
    simp only [hf, if_false, Bool.false_eq_true]
    simp [List.nodup_append, hnd, hnm]

theorem nodup_names_foldl (es : List LanguageEdge) (st : List LanguageStat × ℕ)
    (hnd : (st.1.map LanguageStat.name).Nodup) :
    (((es.foldl aggStep st).1).map LanguageStat.name).Nodup := by
  induction es generalizing st with
  | nil => exact hnd
  | cons e es ih =>
    rw [List.foldl_cons]
    apply ih
    obtain ⟨acc, cnt⟩ := st
    cases hf : findStat acc (canonName e.node.name) <;>
      simp only [aggStep, hf] <;>
      exact nodup_names_updateStat _ _ hnd

theorem nodup_names_aggStats (repos : List RepoNode) (excl : List String) :
    ((aggStats repos excl).map LanguageStat.name).Nodup := by
  exact nodup_names_foldl _ _ (by simp)

theorem mem_aggStep {st : List LanguageStat × ℕ} {e : LanguageEdge}
    {s : LanguageStat} (hs : s ∈ (aggStep st e).1) :
    s ∈ st.1 ∨ (s.name = canonName e.node.name ∧
      s.color = canonColor (canonName e.node.name) e.node.color) := by
  obtain ⟨acc, cnt⟩ := st
  cases hf : findStat acc (canonName e.node.name) <;>
    simp only [aggStep, hf] at hs <;>
    rcases mem_updateStat hs with h | h <;>
    first
      | exact Or.inl h
      | exact Or.inr (by subst h; exact ⟨rfl, rfl⟩)

theorem mem_foldl_inv {es : List LanguageEdge} {st : List LanguageStat × ℕ}
    {s : LanguageStat} (hs : s ∈ (es.foldl aggStep st).1) :
    s ∈ st.1 ∨ ∃ e ∈ es, s.name = canonName e.node.name ∧
      s.color = canonColor (canonName e.node.name) e.node.color := by
  induction es generalizing st with
  | nil => exact Or.inl hs
  | cons e es ih =>
    rw [List.foldl_cons] at hs
    rcases ih hs with h | ⟨e', he', h⟩
    · rcases mem_aggStep h with h | h
      · exact Or.inl h
      · exact Or.inr ⟨e, List.mem_cons_self _ _, h⟩
    · exact Or.inr ⟨e', List.mem_cons_of_mem _ he', h⟩

/-! ### Flattening characterisation -/

theorem foldl_prepend_edges (l : List RepoNode) (acc : List LanguageEdge) :
    l.foldl (fun acc r => r.edges ++ acc) acc =
      ((l.reverse.map RepoNode.edges).flatten) ++ acc := by
  induction l generalizing acc with
  | nil => simp
  | cons r l ih =>
    rw [List.foldl_cons, ih]
    simp [List.reverse_cons, List.map_append, List.flatten_append,
      List.append_assoc]

theorem flattenEdges_eq_flatten (repos : List RepoNode) :
    flattenEdges repos =
      (((repos.filter (fun r => !r.edges.isEmpty)).reverse.map RepoNode.edges).flatten) := by
  rw [flattenEdges, foldl_prepend_edges, List.append_nil]

theorem mem_flattenEdges {repos : List RepoNode} {e : LanguageEdge} :
    e ∈ flattenEdges repos ↔ ∃ r ∈ repos, e ∈ r.edges := by
  rw [flattenEdges_eq_flatten]
  simp only [List.mem_flatten, List.mem_map, List.mem_reverse, List.mem_filter]
  constructor
  · rintro ⟨es, ⟨r, ⟨hr, _⟩, rfl⟩, he⟩
    exact ⟨r, hr, he⟩
  · rintro ⟨r, hr, he⟩
    refine ⟨r.edges, ⟨r, ⟨hr, ?_⟩, rfl⟩, he⟩
    cases hemp : r.edges with
    | nil => rw [hemp] at he; simp at he
    | cons x xs => simp

theorem edgeSizeSum_append (l₁ l₂ : List LanguageEdge) (n : String) :
    edgeSizeSum (l₁ ++ l₂) n = edgeSizeSum l₁ n + edgeSizeSum l₂ n := by
  simp [edgeSizeSum, List.filter_append]

theorem edgeSizeSum_flatten (bs : List (List LanguageEdge)) (n : String) :
    edgeSizeSum bs.flatten n = (bs.map (fun b => edgeSizeSum b n)).sum := by
  induction bs with
  | nil => simp [edgeSizeSum]
  | cons b bs ih => simp [List.flatten_cons, edgeSizeSum_append, ih]

theorem repoSizeSum_cons (r : RepoNode) (l : List RepoNode) (n : String) :
    repoSizeSum (r :: l) n = edgeSizeSum r.edges n + repoSizeSum l n := by
  simp [repoSizeSum]

theorem repoSizeSum_reverse (l : List RepoNode) (n : String) :
    repoSizeSum l.reverse n = repoSizeSum l n := by
  simp [repoSizeSum, List.map_reverse, List.sum_reverse]

theorem repoSizeSum_filter_nonempty (l : List RepoNode) (n : String) :
    repoSizeSum (l.filter (fun r => !r.edges.isEmpty)) n = repoSizeSum l n := by
  induction l with
  | nil => rfl
  | cons r l ih =>
    by_cases h : r.edges.isEmpty
    · have he : r.edges = [] := by
        cases hemp : r.edges with
        | nil => rfl
        | cons x xs => rw [hemp] at h; simp at h
      simp [List.filter_cons, h, repoSizeSum_cons, ih, he, edgeSizeSum]
    · simp [List.filter_cons, h, repoSizeSum_cons, ih]

theorem edgeSizeSum_flattenEdges (repos : List RepoNode) (n : String) :
    edgeSizeSum (flattenEdges repos) n = repoSizeSum repos n := by
  rw [flattenEdges_eq_flatten, edgeSizeSum_flatten]
  have : ∀ (l : List RepoNode),
      ((l.map RepoNode.edges).map (fun b => edgeSizeSum b n)).sum = repoSizeSum l n := by
    intro l; simp [repoSizeSum, List.map_map]; rfl
  rw [this, repoSizeSum_reverse, repoSizeSum_filter_nonempty]

/-! ### Aggregated mapping laws -/

theorem statSize_aggStats (repos : List RepoNode) (excl : List String)
    (n : String) :
    statSize (aggStats repos excl) n = repoSizeSum (filteredRepos excl repos) n := by
  rw [aggStats, aggregateEdges, statSize_foldl, edgeSizeSum_flattenEdges]
  simp [statSize, findStat]

theorem mem_name_aggStats (repos : List RepoNode) (excl : List String)
    (n : String) :
    (∃ s ∈ aggStats repos excl, s.name = n) ↔
      (∃ r ∈ filteredRepos excl repos, ∃ e ∈ r.edges, canonName e.node.name = n) := by
  rw [← findStat_isSome_iff_mem, aggStats, aggregateEdges, findStat_isSome_foldl]
  simp only [findStat, Option.isSome_none, Bool.false_eq_true, false_or]
  constructor
  · rintro ⟨e, he, hc⟩
    rcases mem_flattenEdges.mp he with ⟨r, hr, hre⟩
    exact ⟨r, hr, e, hre, hc⟩
  · rintro ⟨r, hr, e, hre, hc⟩
    exact ⟨e, mem_flattenEdges.mpr ⟨r, hr, hre⟩, hc⟩

/-! ### Transport through weighting and ranking -/

theorem rank_perm (l : List WLangStat) : (rank l).Perm l :=
  List.perm_insertionSort wGE l

theorem mem_topLangsOf {repos : List RepoNode} {excl : List String} {sw cw : ℝ}
    {w : WLangStat} (hw : w ∈ topLangsOf repos excl sw cw) :
    ∃ s ∈ aggStats repos excl, w = weightStat sw cw s := by
  rw [topLangsOf] at hw
  have hw' : w ∈ weightedStats repos excl sw cw := (rank_perm _).mem_iff.mp hw
  rcases List.mem_map.mp hw' with ⟨s, hs, rfl⟩
  exact ⟨s, hs, rfl⟩

theorem name_mem_topLangsOf_iff (repos : List RepoNode) (excl : List String)
    (sw cw : ℝ) (n : String) :
    (∃ w ∈ topLangsOf repos excl sw cw, w.name = n) ↔
      ∃ s ∈ aggStats repos excl, s.name = n := by
  constructor
  · rintro ⟨w, hw, rfl⟩
    rcases mem_topLangsOf hw with ⟨s, hs, rfl⟩
    exact ⟨s, hs, rfl⟩
  · rintro ⟨s, hs, rfl⟩
    refine ⟨weightStat sw cw s, ?_, rfl⟩
    rw [topLangsOf]
    exact (rank_perm _).mem_iff.mpr
      (List.mem_map.mpr ⟨s, hs, rfl⟩)

/-! ### The exclusion filter without prototype-colliding names -/

theorem filteredRepos_of_no_proto {repos : List RepoNode} (excl : List String)
    (hp : ∀ r ∈ repos, r.name ∉ objectProtoProps) :
    filteredRepos excl repos = repos.filter (fun r => !decide (r.name ∈ excl)) := by
  rw [filteredRepos, preSortRepos_eq_self]
  apply List.filter_congr
  intro r hr
  simp [repoToHideTruthy, hp r hr]

theorem topLangsOf_of_filtered_nil {repos : List RepoNode} {excl : List String}
    (sw cw : ℝ) (h : filteredRepos excl repos = []) :
    topLangsOf repos excl sw cw = [] := by
  rw [topLangsOf, weightedStats, aggStats, h]
  rfl

/-! ### Further helper lemmas -/

theorem aggStep_snd (st : List LanguageStat × ℕ) (e : LanguageEdge) :
    (aggStep st e).2 =
      if (findStat st.1 (canonName e.node.name)).isSome then st.2 + 1 else 1 := by
  obtain ⟨acc, cnt⟩ := st
  cases hf : findStat acc (canonName e.node.name) <;> simp [aggStep, hf]

theorem findStat_aggStep_self (st : List LanguageStat × ℕ) (e : LanguageEdge) :
    ∃ t, findStat (aggStep st e).1 (canonName e.node.name) = some t
      ∧ t.count = (aggStep st e).2 := by
  obtain ⟨acc, cnt⟩ := st
  cases hf : findStat acc (canonName e.node.name) with
  | none =>
    refine ⟨⟨canonName e.node.name,
      canonColor (canonName e.node.name) e.node.color, e.size, 1⟩, ?_, ?_⟩
    · simp [aggStep, hf, findStat_updateStat]
    · simp [aggStep, hf]
  | some t0 =>
    refine ⟨⟨canonName e.node.name,
      canonColor (canonName e.node.name) e.node.color, e.size + t0.size, cnt + 1⟩, ?_, ?_⟩
    · simp [aggStep, hf, findStat_updateStat]
    · simp [aggStep, hf]

theorem canonName_ne_jupyter (n : String) : ¬ canonName n = "Jupyter Notebook" := by
  rw [canonName]
  by_cases h : n = "Jupyter Notebook" <;> simp [h]

theorem canonName_eq_python (n : String) :
    (canonName n = "Python") ↔ (n = "Jupyter Notebook" ∨ n = "Python") := by
  rw [canonName]
  by_cases h : n = "Jupyter Notebook" <;> simp [h]

theorem mem_aggStats_shape {repos : List RepoNode} {excl : List String}
    {s : LanguageStat} (hs : s ∈ aggStats repos excl) :
    ¬ s.name = "Jupyter Notebook" ∧ (s.name = "Python" → s.color = "#3572A5") := by
  rw [aggStats, aggregateEdges] at hs
  rcases mem_foldl_inv hs with h | ⟨e, _, hn, hc⟩
  · simp at h
  · constructor
    · rw [hn]; exact canonName_ne_jupyter _
    · intro hpy
      have hce : canonName e.node.name = "Python" := hn.symm.trans hpy
      rw [hc, hce, canonColor]
      simp

/-! ### Claim theorems -/

/-- C5: for every aggregated entry and every pair of exponents, the
weighted size equals `size ^ size_weight * count ^ count_weight` under
real-valued exponentiation with no rounding; under the default exponents
`size_weight = 1` and `count_weight = 0` the weighted size equals the
unweighted aggregate size exactly, across the whole weighting pass. -/
theorem claim_C5 (s : LanguageStat) (sw cw : ℝ) (repos : List RepoNode)
    (excl : List String) :
    (weightStat sw cw s).size = (s.size : ℝ) ^ sw * (s.count : ℝ) ^ cw
    ∧ (weightStat 1 0 s).size = (s.size : ℝ)
    ∧ (weightedStats repos excl 1 0).map WLangStat.size
        = (aggStats repos excl).map (fun t => (t.size : ℝ)) := by
  refine ⟨rfl, ?_, ?_⟩
  · show (s.size : ℝ) ^ (1 : ℝ) * (s.count : ℝ) ^ (0 : ℝ) = (s.size : ℝ)
    rw [Real.rpow_one, Real.rpow_zero, mul_one]
  · rw [weightedStats, List.map_map]
    refine List.map_congr_left ?_
    intro t _
    show (t.size : ℝ) ^ (1 : ℝ) * (t.count : ℝ) ^ (0 : ℝ) = (t.size : ℝ)
    rw [Real.rpow_one, Real.rpow_zero, mul_one]

/-- C6: when `username` is empty (the model of absent/empty, i.e. falsy),
`fetchTopLanguages` fails with a MissingParameter error naming
`username`, and the result is the same whatever response the
fetcher/retryer collaborator would have produced — no part of the
response is consulted. -/
theorem claim_C6 (excl : List String) (sw cw : ℝ) (res : Response) :
    fetchTopLanguages "" excl sw cw res = .error (.missingParam ["username"]) := rfl

/-- C7 counterexample: the first error of `notFoundEmptyResp` has type
`NOT_FOUND` and a present (but empty) `message` field, yet the code
raises the generic fallback "Could not fetch user." rather than the
payload's message, because JavaScript `||` treats the empty string as
falsy.  This refutes the claim that the message is the payload's message
whenever one is present. -/
theorem claim_C7_cex :
    notFoundEmptyResp.errors = some [⟨some "NOT_FOUND", some ""⟩]
    ∧ fetchTopLanguages "octocat" [] 1 0 notFoundEmptyResp
        = .error (.userNotFound "Could not fetch user.")
    ∧ fetchTopLanguages "octocat" [] 1 0 notFoundEmptyResp
        ≠ .error (.userNotFound "") := by
  refine ⟨rfl, rfl, ?_⟩
  intro h
  rw [show fetchTopLanguages "octocat" [] 1 0 notFoundEmptyResp
      = .error (.userNotFound "Could not fetch user.") from rfl] at h
  simp at h

/-- C7 (amended): for every upstream response whose first error has type
`NOT_FOUND`, `fetchTopLanguages` raises a UserNotFound error whose
message is the payload's message when present and non-empty, and the
generic fallback "Could not fetch user." when the message field is
absent or is the empty string. -/
theorem claim_C7 (username : String) (excl : List String) (sw cw : ℝ)
    (res : Response) (e : GqlError) (rest : List GqlError)
    (hu : ¬ username = "") (herr : res.errors = some (e :: rest))
    (hnf : e.type = some "NOT_FOUND") :
    fetchTopLanguages username excl sw cw res
      = .error (.userNotFound (jsOrElse e.message "Could not fetch user."))
    ∧ (∀ m, ¬ m = "" → jsOrElse (some m) "Could not fetch user." = m)
    ∧ jsOrElse none "Could not fetch user." = "Could not fetch user."
    ∧ jsOrElse (some "") "Could not fetch user." = "Could not fetch user." := by
  refine ⟨?_, fun m hm => by simp [jsOrElse, hm], rfl, rfl⟩
  rw [fetchTopLanguages, if_neg hu, herr]
  simp [hnf]

/-- C7 witness: a concrete `NOT_FOUND` response with message "No user"
produces a UserNotFound error carrying that message. -/
theorem claim_C7_witness :
    fetchTopLanguages "octocat" [] 1 0 notFoundMsgResp
      = .error (.userNotFound "No user") :=
  (claim_C7 "octocat" [] 1 0 notFoundMsgResp ⟨some "NOT_FOUND", some "No user"⟩ []
    (by decide) rfl rfl).1

/-- C8: with no repository-level size attribute available (the modelled
situation — the GraphQL selection never provides one), the pre-sort is a
stable no-op: every pair of repositories compares equal, the sort leaves
every list exactly in its original order, and the repositories remaining
after exclusion filtering keep their relative order (the filtered list
is a sublist of the original). -/
theorem claim_C8 (l : List RepoNode) (excl : List String) :
    preSortRepos l = l
    ∧ (∀ a b : RepoNode, repoTie a b ∧ repoTie b a)
    ∧ List.Sublist (filteredRepos excl l) l := by
  refine ⟨preSortRepos_eq_self l, fun a b => ⟨trivial, trivial⟩, ?_⟩
  rw [filteredRepos, preSortRepos_eq_self]
  exact List.filter_sublist _

/-- C9: the weighting function is monotone non-decreasing in the
pre-weighting size whenever `size_weight ≥ 0` and the counts agree
(pre-weighting sizes are non-negative by construction, being naturals). -/
theorem claim_C9 (s t : LanguageStat) (sw cw : ℝ) (hsw : 0 ≤ sw)
    (hc : s.count = t.count) (hst : s.size ≤ t.size) :
    (weightStat sw cw s).size ≤ (weightStat sw cw t).size := by
  show (s.size : ℝ) ^ sw * (s.count : ℝ) ^ cw
      ≤ (t.size : ℝ) ^ sw * (t.count : ℝ) ^ cw
  rw [hc]
  exact mul_le_mul_of_nonneg_right
    (Real.rpow_le_rpow (Nat.cast_nonneg _) (Nat.cast_le.mpr hst) hsw)
    (Real.rpow_nonneg (Nat.cast_nonneg _) _)

/-- C9 witness: with exponents `size_weight = 1/2 ≥ 0`, `count_weight = 3`
and equal counts, a 10-byte entry weighs no more than a 40-byte one. -/
theorem claim_C9_witness :
    (0 : ℝ) ≤ 1/2
    ∧ (weightStat (1/2) 3 ⟨"Go", "#00ADD8", 10, 2⟩).size
        ≤ (weightStat (1/2) 3 ⟨"Rust", "#dea584", 40, 2⟩).size :=
  ⟨by norm_num,
    claim_C9 ⟨"Go", "#00ADD8", 10, 2⟩ ⟨"Rust", "#dea584", 40, 2⟩ (1/2) 3
      (by norm_num) rfl (by norm_num)⟩

/-- C10: a repository whose name is an inherited `Object.prototype`
property name is dropped by the exclusion filter whatever the exclusion
list says (in particular when it is empty), and its edges contribute
nothing to the final output. -/
theorem claim_C10 (r : RepoNode) (l₁ l₂ : List RepoNode) (excl : List String)
    (sw cw : ℝ) (hp : r.name ∈ objectProtoProps) :
    filteredRepos excl (l₁ ++ r :: l₂) = filteredRepos excl (l₁ ++ l₂)
    ∧ topLangsOf (l₁ ++ r :: l₂) excl sw cw = topLangsOf (l₁ ++ l₂) excl sw cw := by
  have hide : repoToHideTruthy excl r.name = true := by
    simp [repoToHideTruthy, hp]
  have hfil : filteredRepos excl (l₁ ++ r :: l₂) = filteredRepos excl (l₁ ++ l₂) := by
    rw [filteredRepos, filteredRepos, preSortRepos_eq_self, preSortRepos_eq_self,
      List.filter_append, List.filter_append, List.filter_cons]
    simp [hide]
  exact ⟨hfil, by simp only [topLangsOf, weightedStats, aggStats, hfil]⟩

/-- C10 witness: the repository named `toString` vanishes from the output
even though the exclusion list is empty. -/
theorem claim_C10_witness :
    topLangsOf [repoProto, repoA] [] 1 0 = topLangsOf [repoA] [] 1 0 :=
  (claim_C10 repoProto [] [repoA] [] 1 0 (by decide)).2

/-- C1 counterexample: the repository named `constructor` is not in the
(empty) exclusion list and carries a Go edge, yet "Go" does not appear in
the output: the claim's "exactly the canonical language names of
non-excluded repositories" fails as stated. -/
theorem claim_C1_cex :
    (∃ r ∈ [repoCtor], r.name ∉ ([] : List String)
      ∧ ∃ e ∈ r.edges, canonName e.node.name = "Go")
    ∧ ¬ (∃ w ∈ topLangsOf [repoCtor] [] 1 0, w.name = "Go") := by
  constructor
  · decide
  · have h : filteredRepos [] [repoCtor] = [] := by decide
    rw [topLangsOf_of_filtered_nil 1 0 h]
    simp

/-- C1 (amended): provided no repository name coincides with an inherited
`Object.prototype` property name, the output contains exactly the
canonical language names occurring in the edges of non-excluded
repositories, each aggregated entry's pre-weighting size is the sum of
the edge sizes mapping to its canonical name across the non-excluded
repositories, and an empty repository list or exclusion of every
repository yields an empty output. -/
theorem claim_C1 (repos : List RepoNode) (excl : List String) (sw cw : ℝ)
    (hp : ∀ r ∈ repos, r.name ∉ objectProtoProps) :
    (∀ n, (∃ w ∈ topLangsOf repos excl sw cw, w.name = n) ↔
        ∃ r ∈ repos, r.name ∉ excl ∧ ∃ e ∈ r.edges, canonName e.node.name = n)
    ∧ (∀ s ∈ aggStats repos excl,
        s.size = repoSizeSum (repos.filter (fun r => !decide (r.name ∈ excl))) s.name)
    ∧ (repos = [] → topLangsOf repos excl sw cw = [])
    ∧ ((∀ r ∈ repos, r.name ∈ excl) → topLangsOf repos excl sw cw = []) := by
  have hfil := filteredRepos_of_no_proto excl hp
  refine ⟨?_, ?_, ?_, ?_⟩
  · intro n
    rw [name_mem_topLangsOf_iff, mem_name_aggStats, hfil]
    constructor
    · rintro ⟨r, hr, he⟩
      rw [List.mem_filter] at hr
      refine ⟨r, hr.1, ?_, he⟩
      simpa using hr.2
    · rintro ⟨r, hr, hne, he⟩
      exact ⟨r, List.mem_filter.mpr ⟨hr, by simpa using hne⟩, he⟩
  · intro s hs
    have hfind := findStat_of_mem_nodup (nodup_names_aggStats repos excl) hs
    have hsize := statSize_aggStats repos excl s.name
    rw [hfil] at hsize
    rw [← hsize, statSize, hfind]
  · rintro rfl
    exact topLangsOf_of_filtered_nil sw cw (by rw [hfil]; rfl)
  · intro hall
    refine topLangsOf_of_filtered_nil sw cw ?_
    rw [hfil]
    refine List.filter_eq_nil.mpr ?_
    intro r hr
    simp [hall r hr]

/-- C1 witness: with repositories `A` (100 bytes of JavaScript) and `B`
(50 bytes of JavaScript) and `B` excluded, JavaScript appears in the
output. -/
theorem claim_C1_witness :
    (∀ r ∈ [repoA, repoB], r.name ∉ objectProtoProps)
    ∧ (∃ w ∈ topLangsOf [repoA, repoB] ["B"] 1 0, w.name = "JavaScript") :=
  ⟨by decide,
    ((claim_C1 [repoA, repoB] ["B"] 1 0 (by decide)).1 "JavaScript").mpr (by decide)⟩

/-- C2: the contribution counter is one scalar shared across the whole
fold: at the step processing an edge it becomes `previous + 1` when the
edge's canonical name already has an entry and resets to `1` when the
entry is created; the entry touched by that edge stores a snapshot of the
counter at that moment, and if no later edge touches the same canonical
name that snapshot is still the stored count at the end of the fold. -/
theorem claim_C2 (l r : List LanguageEdge) (e : LanguageEdge)
    (hlast : ∀ e' ∈ r, ¬ canonName e'.node.name = canonName e.node.name) :
    ((aggregateEdges (l ++ [e])).2 =
      if (findStat (aggregateEdges l).1 (canonName e.node.name)).isSome
        then (aggregateEdges l).2 + 1 else 1)
    ∧ (∃ t, findStat (aggregateEdges (l ++ [e])).1 (canonName e.node.name) = some t
        ∧ t.count = (aggregateEdges (l ++ [e])).2)
    ∧ (∃ t, findStat (aggregateEdges (l ++ e :: r)).1 (canonName e.node.name) = some t
        ∧ t.count = (aggregateEdges (l ++ [e])).2) := by
  have h1 : aggregateEdges (l ++ [e]) = aggStep (aggregateEdges l) e := by
    rw [aggregateEdges, aggregateEdges, List.foldl_append, List.foldl_cons,
      List.foldl_nil]
  have h2 : aggregateEdges (l ++ e :: r) =
      r.foldl aggStep (aggStep (aggregateEdges l) e) := by
    rw [aggregateEdges, aggregateEdges, List.foldl_append, List.foldl_cons]
  refine ⟨?_, ?_, ?_⟩
  · rw [h1, aggStep_snd]
  · rw [h1]
    exact findStat_aggStep_self _ e
  · rcases findStat_aggStep_self (aggregateEdges l) e with ⟨t, hft, hc⟩
    refine ⟨t, ?_, by rw [h1]; exact hc⟩
    rw [h2, findStat_foldl_untouched _ _ _ hlast]
    exact hft

/-- C2 witness: after `[100 JS] ++ [50 JS]` the counter has incremented to
2 (JavaScript already had an entry), and a later Go edge does not disturb
the stored JavaScript snapshot. -/
theorem claim_C2_witness :
    ((aggregateEdges ([edgeJS 100] ++ [edgeJS 50])).2 =
      if (findStat (aggregateEdges [edgeJS 100]).1
          (canonName (edgeJS 50).node.name)).isSome
        then (aggregateEdges [edgeJS 100]).2 + 1 else 1)
    ∧ (∃ t, findStat (aggregateEdges ([edgeJS 100] ++ edgeJS 50 :: [edgeGo 10])).1
          (canonName (edgeJS 50).node.name) = some t
        ∧ t.count = (aggregateEdges ([edgeJS 100] ++ [edgeJS 50])).2) :=
  ⟨(claim_C2 [edgeJS 100] [edgeGo 10] (edgeJS 50) (by decide)).1,
    (claim_C2 [edgeJS 100] [edgeGo 10] (edgeJS 50) (by decide)).2.2⟩

/-- C3: no output entry is named "Jupyter Notebook" (such edges are
re-labelled "Python"), any output entry named "Python" has colour
`#3572A5` whatever colours the contributing edges carried, and the
aggregated Python size is the total size of the edges named either
"Jupyter Notebook" or "Python" across the surviving repositories. -/
theorem claim_C3 (repos : List RepoNode) (excl : List String) (sw cw : ℝ) :
    (∀ w ∈ topLangsOf repos excl sw cw, ¬ w.name = "Jupyter Notebook")
    ∧ (∀ w ∈ topLangsOf repos excl sw cw, w.name = "Python" → w.color = "#3572A5")
    ∧ statSize (aggStats repos excl) "Python" =
        ((filteredRepos excl repos).map (fun r =>
          ((r.edges.filter (fun e =>
            e.node.name = "Jupyter Notebook" ∨ e.node.name = "Python")).map
              LanguageEdge.size).sum)).sum := by
  refine ⟨?_, ?_, ?_⟩
  · intro w hw
    rcases mem_topLangsOf hw with ⟨s, hs, rfl⟩
    exact (mem_aggStats_shape hs).1
  · intro w hw
    rcases mem_topLangsOf hw with ⟨s, hs, rfl⟩
    exact (mem_aggStats_shape hs).2
  · rw [statSize_aggStats, repoSizeSum]
    refine congrArg List.sum (List.map_congr_left ?_)
    intro r _
    rw [edgeSizeSum]
    refine congrArg List.sum (congrArg (List.map LanguageEdge.size) ?_)
    refine List.filter_congr ?_
    intro e _
    simp [canonName_eq_python]

/-- C3 witness: a single 200-byte Jupyter Notebook edge with the Jupyter
colour produces a "Python" output entry whose colour is `#3572A5`. -/
theorem claim_C3_witness :
    wPython ∈ topLangsOf [repoJ] [] 1 0 ∧ wPython.color = "#3572A5" := by
  have hmem : wPython ∈ topLangsOf [repoJ] [] 1 0 := by
    rw [show topLangsOf [repoJ] [] 1 0 = [wPython] from rfl]
    exact List.mem_singleton.mpr rfl
  exact ⟨hmem, (claim_C3 [repoJ] [] 1 0).2.1 wPython hmem rfl⟩

/-- C4: the output is a permutation of the weighted entries, its
iteration order is non-increasing in weighted size, and entries with
equal weighted sizes keep the relative order they had in the aggregated
mapping (stable tie-breaking by insertion order). -/
theorem claim_C4 (repos : List RepoNode) (excl : List String) (sw cw : ℝ) :
    List.Sorted wGE (topLangsOf repos excl sw cw)
    ∧ (topLangsOf repos excl sw cw).Perm (weightedStats repos excl sw cw)
    ∧ (∀ a b : WLangStat, List.Sublist [a, b] (weightedStats repos excl sw cw) →
        a.size = b.size → List.Sublist [a, b] (topLangsOf repos excl sw cw)) := by
  refine ⟨List.sorted_insertionSort wGE _, rank_perm _, ?_⟩
  intro a b hsub htie
  exact List.pair_sublist_insertionSort htie.ge hsub

/-- C4 witness: Rust and Go tie at 100 weighted bytes; Rust was inserted
into the aggregated mapping first (its repository's edges were prepended
by the flattener) and stays ahead of Go in the output. -/
theorem claim_C4_witness :
    List.Sublist [wRust, wGo] (weightedStats [repoG, repoR] [] 1 0)
    ∧ List.Sublist [wRust, wGo] (topLangsOf [repoG, repoR] [] 1 0) := by
  have hsub : List.Sublist [wRust, wGo] (weightedStats [repoG, repoR] [] 1 0) := by
    rw [show weightedStats [repoG, repoR] [] 1 0 = [wRust, wGo] from rfl]
  exact ⟨hsub, (claim_C4 [repoG, repoR] [] 1 0).2.2 wRust wGo hsub rfl⟩
